import Mathlib

/-!
Verification of the prompt-assembly module (`crates/assistant/src/prompts.rs`).

The module has two algorithmic cores:

* `summarize` — the outline reducer: given a document, a list of collapse
  candidates (produced externally by the tree-sitter span-query oracle) and a
  selected byte range (the point of interest), it renders a shortened text in
  which uninteresting bodies are collapsed to their `keep` sub-ranges while the
  point of interest is flushed verbatim between sentinel markers.

* `generate_content_prompt` — the prompt assembler and budgeted snippet packer:
  it assembles a list of prompt parts, computes a remaining token budget from a
  token-counting oracle, and greedily inserts as many leading ranked snippets
  as fit.

Documents are modelled as `List Char` with byte-offset addressing (one offset
per element).  The tree-sitter query engine and the tiktoken token-counting
library are external collaborators and are taken as inputs (a candidate list,
an oracle structure).  `usize` arithmetic that can overflow is modelled with an
explicit `% 2 ^ 64` wrap (the release-build semantics of Rust subtraction).
-/

/-- A half-open byte range `[start, stop)`.  Mirrors Rust `Range<usize>`
(`end` is renamed `stop`, which Lean reserves). -/
structure ByteRange where
  start : Nat
  stop : Nat
deriving DecidableEq, Repr

/-- `buffer.text_for_range(a..b)`: the characters of the document in `[a, b)`.
Out-of-bounds ends are clamped (the Rust code never slices out of bounds for
in-bounds inputs). -/
def textForRange (buf : List Char) (a b : Nat) : List Char :=
  (buf.take b).drop a

/-- One tree-sitter match relevant to summarization: a collapsible byte range
plus the sub-ranges to keep verbatim when the range is collapsed.  Mirrors the
local `struct Match` in `summarize`. -/
structure Match where
  collapse : ByteRange
  keep : List ByteRange
deriving DecidableEq, Repr

/-- The start sentinel emitted in front of the point of interest. -/
def startMark : List Char := "<|START|".toList

/-- The sentinel tail emitted for an empty point of interest (a cursor). -/
def cursorMark : List Char := ">".toList

/-- The end sentinel emitted after a non-empty point of interest. -/
def endMark : List Char := "|END|>".toList

/-- The sort key order used by `summarize`:
`matches.sort_unstable_by_key(|mat| (mat.collapse.start, Reverse(mat.collapse.end)))`,
i.e. ascending start and, on ties, descending end. -/
def matchKeyLE (a b : Match) : Prop :=
  a.collapse.start < b.collapse.start ∨
    (a.collapse.start = b.collapse.start ∧ b.collapse.stop ≤ a.collapse.stop)

instance : DecidableRel matchKeyLE := fun _a _b =>
  inferInstanceAs (Decidable (_ ∨ _))

instance : IsTotal Match matchKeyLE :=
  ⟨by intro a b; unfold matchKeyLE; omega⟩

instance : IsTrans Match matchKeyLE :=
  ⟨by intro a b c hab hbc; unfold matchKeyLE at *; omega⟩

/-- The sort at the head of the reducer loop.  The Rust code uses an unstable
sort; we model it with a (stable, deterministic) insertion sort on the same
key, which realizes one admissible behaviour of `sort_unstable_by_key`. -/
def sortMatches (mats : List Match) : List Match :=
  List.insertionSort matchKeyLE mats

/-- The inner containment-merge loop: starting from the current match `mat`,
drop following matches while their collapse range is fully nested in
`mat.collapse` (`mat.collapse.start <= next.collapse.start &&
mat.collapse.end >= next.collapse.end`), stopping at the first that is not. -/
def dropNested (mat : Match) : List Match → List Match
  | [] => []
  | m :: rest =>
    if mat.collapse.start ≤ m.collapse.start ∧ m.collapse.stop ≤ mat.collapse.stop then
      dropNested mat rest
    else
      m :: rest

/-- `dropNested` only removes elements, so it does not increase length. -/
theorem dropNested_length_le (mat : Match) :
    ∀ l : List Match, (dropNested mat l).length ≤ l.length
  | [] => Nat.le_refl _
  | m :: rest => by
    unfold dropNested
    split
    · exact Nat.le_trans (dropNested_length_le mat rest) (Nat.le_succ _)
    · exact Nat.le_refl _

/-- The sentinel-delimited rendering of the point of interest: the start
sentinel, then either a single closing `>` when the range is empty (a cursor)
or the verbatim selected text followed by the end sentinel. -/
def selectionBlock (buf : List Char) (sel : ByteRange) : List Char :=
  startMark ++
    (if sel.stop = sel.start then cursorMark
     else textForRange buf sel.start sel.stop ++ endMark)

/-- Text emitted when collapsing match `mat` from write cursor `offset`: the
verbatim text up to the collapse start, then only the `keep` sub-ranges. -/
def collapseDelta (buf : List Char) (mat : Match) (offset : Nat) : List Char :=
  textForRange buf offset mat.collapse.start ++
    (mat.keep.map fun k => textForRange buf k.start k.stop).flatten

/-- One iteration of the reducer loop body (after the containment merge),
lines 119-150 of `prompts.rs`.  Returns the text appended to the summary, the
new write cursor and the new `flushed_selection` flag.

* if `offset > mat.collapse.start` the candidate was already subsumed by
  previously emitted text: skip it, advancing the cursor;
* else if `offset <= sel.start <= mat.collapse.end`, flush the selection first
  (unless already flushed), and if `sel.end >= mat.collapse.start` do not
  collapse this candidate (continue);
* otherwise collapse: emit text up to the collapse start and the keep ranges,
  advancing the cursor to the collapse end. -/
def summarizeStep (buf : List Char) (sel : ByteRange) (mat : Match)
    (offset : Nat) (flushed : Bool) : List Char × Nat × Bool :=
  if mat.collapse.start < offset then
    ([], max offset mat.collapse.stop, flushed)
  else if offset ≤ sel.start ∧ sel.start ≤ mat.collapse.stop then
    if flushed then
      if mat.collapse.start ≤ sel.stop then
        ([], offset, flushed)
      else
        (collapseDelta buf mat offset, mat.collapse.stop, flushed)
    else
      let d := textForRange buf offset sel.start ++ selectionBlock buf sel
      if mat.collapse.start ≤ sel.stop then
        (d, sel.stop, true)
      else
        (d ++ collapseDelta buf mat sel.stop, mat.collapse.stop, true)
  else
    (collapseDelta buf mat offset, mat.collapse.stop, flushed)

/-- After the loop (lines 153-167): flush the selection if it was never
flushed and the cursor has not passed it, then flush the rest of the
document. -/
def finalFlush (buf : List Char) (sel : ByteRange) (offset : Nat)
    (flushed : Bool) : List Char :=
  if ¬flushed ∧ offset ≤ sel.start then
    textForRange buf offset sel.start ++ selectionBlock buf sel ++
      textForRange buf sel.stop buf.length
  else
    textForRange buf offset buf.length

/-- The body of the reducer's `while let` loop, carrying the current
candidate `mat`: following matches nested in `mat` are merged away (the inner
`peek` loop); at the first non-nested match, `mat` is processed with
`summarizeStep` and the walk continues from that match; when the list is
exhausted, the last `mat` is processed and the final flush runs. -/
def summarizeLoop (buf : List Char) (sel : ByteRange) :
    List Match → Match → List Char → Nat → Bool → List Char
  | [], mat, summary, offset, flushed =>
    let st := summarizeStep buf sel mat offset flushed
    (summary ++ st.1) ++ finalFlush buf sel st.2.1 st.2.2
  | m :: rest, mat, summary, offset, flushed =>
    if mat.collapse.start ≤ m.collapse.start ∧ m.collapse.stop ≤ mat.collapse.stop then
      summarizeLoop buf sel rest mat summary offset flushed
    else
      let st := summarizeStep buf sel mat offset flushed
      summarizeLoop buf sel rest m (summary ++ st.1) st.2.1 st.2.2

/-- The reducer's main loop over the sorted matches, interleaving the
containment merge with the per-candidate step, then the final flush.  Mirrors
lines 106-167 of `prompts.rs`.  The recursion over `dropNested` is recovered
as the equation `summarizeFrom_cons`. -/
def summarizeFrom (buf : List Char) (sel : ByteRange) :
    List Match → List Char → Nat → Bool → List Char
  | [], summary, offset, flushed => summary ++ finalFlush buf sel offset flushed
  | mat :: rest, summary, offset, flushed =>
    summarizeLoop buf sel rest mat summary offset flushed

/-- `summarize(buffer, selected_range)`.  The tree-sitter matches are produced
by the external span-query oracle and are taken here as the input `matches`;
the function sorts them by `(collapse.start, Reverse(collapse.end))` and runs
the reducer loop with an empty summary, write cursor `0` and
`flushed_selection = false`. -/
def summarize (buf : List Char) (mats : List Match)
    (selected_range : ByteRange) : List Char :=
  summarizeFrom buf selected_range (sortMatches mats) [] 0 false

/-- The walk underlying `mergeSurvivors`, carrying the current candidate. -/
def survivorsLoop : List Match → Match → List Match
  | [], mat => [mat]
  | m :: rest, mat =>
    if mat.collapse.start ≤ m.collapse.start ∧ m.collapse.stop ≤ mat.collapse.stop then
      survivorsLoop rest mat
    else
      mat :: survivorsLoop rest m

/-- The sequence of matches that the reducer loop actually takes up as the
current candidate `mat`, i.e. the survivors of the interleaved containment
merge.  (The merge does not depend on the text state, so this sequence is a
function of the sorted list alone.) -/
def mergeSurvivors : List Match → List Match
  | [] => []
  | mat :: rest => survivorsLoop rest mat


/-- `survivorsLoop` expressed through `dropNested`: the current candidate is
emitted and the walk continues at the first following non-nested match. -/
theorem survivorsLoop_eq (mat : Match) :
    ∀ l : List Match,
      survivorsLoop l mat = mat :: mergeSurvivors (dropNested mat l)
  | [] => rfl
  | m :: rest => by
    by_cases hc : mat.collapse.start ≤ m.collapse.start ∧
        m.collapse.stop ≤ mat.collapse.stop
    · rw [survivorsLoop, if_pos hc, dropNested, if_pos hc]
      exact survivorsLoop_eq mat rest
    · rw [survivorsLoop, if_neg hc, dropNested, if_neg hc]
      rfl

/-- The recursion equation of `mergeSurvivors` over `dropNested`. -/
theorem mergeSurvivors_cons (mat : Match) (rest : List Match) :
    mergeSurvivors (mat :: rest) = mat :: mergeSurvivors (dropNested mat rest) :=
  survivorsLoop_eq mat rest

/-- `summarizeLoop` expressed through `dropNested`. -/
theorem summarizeLoop_eq (buf : List Char) (sel : ByteRange) (mat : Match) :
    ∀ (l : List Match) (s : List Char) (off : Nat) (fl : Bool),
      summarizeLoop buf sel l mat s off fl =
        summarizeFrom buf sel (dropNested mat l)
          (s ++ (summarizeStep buf sel mat off fl).1)
          (summarizeStep buf sel mat off fl).2.1
          (summarizeStep buf sel mat off fl).2.2
  | [], s, off, fl => rfl
  | m :: rest, s, off, fl => by
    by_cases hc : mat.collapse.start ≤ m.collapse.start ∧
        m.collapse.stop ≤ mat.collapse.stop
    · rw [summarizeLoop, if_pos hc, dropNested, if_pos hc]
      exact summarizeLoop_eq buf sel mat rest s off fl
    · rw [summarizeLoop, if_neg hc, dropNested, if_neg hc]
      rfl

/-- The recursion equation of `summarizeFrom` over `dropNested`. -/
theorem summarizeFrom_cons (buf : List Char) (sel : ByteRange) (mat : Match)
    (rest : List Match) (s : List Char) (off : Nat) (fl : Bool) :
    summarizeFrom buf sel (mat :: rest) s off fl =
      summarizeFrom buf sel (dropNested mat rest)
        (s ++ (summarizeStep buf sel mat off fl).1)
        (summarizeStep buf sel mat off fl).2.1
        (summarizeStep buf sel mat off fl).2.2 :=
  summarizeLoop_eq buf sel mat rest s off fl

/-- The reducer loop specialized to an already-merged list: it runs
`summarizeStep` on every element in turn (no `dropNested`).  `summarizeFrom`
on any list agrees with `processMats` on its `mergeSurvivors`
(`summarizeFrom_eq_processMats`). -/
def processMats (buf : List Char) (sel : ByteRange) :
    List Match → List Char → Nat → Bool → List Char
  | [], summary, offset, flushed => summary ++ finalFlush buf sel offset flushed
  | mat :: rest, summary, offset, flushed =>
    let st := summarizeStep buf sel mat offset flushed
    processMats buf sel rest (summary ++ st.1) st.2.1 st.2.2

/-- Instrumented view of the reducer loop recording which candidates take the
collapse-emission branch of `summarizeStep` (emit `keep` sub-ranges in place
of their body).  The condition is exactly the one under which `summarizeStep`
produces a `collapseDelta`: the candidate is not skipped
(`offset <= mat.collapse.start`) and either the selection test of line 125
fails or the selection ends strictly before the collapse start
(line 141 does not `continue`). -/
def collapsedMats (buf : List Char) (sel : ByteRange) :
    List Match → Nat → Bool → List Match
  | [], _, _ => []
  | mat :: rest, offset, flushed =>
    let st := summarizeStep buf sel mat offset flushed
    (if offset ≤ mat.collapse.start ∧
        (¬(offset ≤ sel.start ∧ sel.start ≤ mat.collapse.stop) ∨
          sel.stop < mat.collapse.start)
     then [mat] else []) ++ collapsedMats buf sel rest st.2.1 st.2.2

/-- One ranked supporting snippet (`PromptCodeSnippet`): source text plus an
optional originating file path and optional language label.  `PathBuf` is
modelled as the rendered path string. -/
structure PromptCodeSnippet where
  path : Option String
  language_name : Option String
  content : String
deriving DecidableEq, Repr

/-- `impl ToString for PromptCodeSnippet` (lines 45-57): absent path or
language render as the empty string; the header line and fenced block are
always produced. -/
def PromptCodeSnippet.toString (s : PromptCodeSnippet) : String :=
  let path := s.path.getD ""
  let language_name := s.language_name.getD ""
  let content := s.content
  "The below code snippet may be relevant from file: " ++ path ++ "\n" ++
    "```" ++ language_name ++ "\n" ++ content ++ "\n" ++ "```"

/-- The edit kind: an insertion at a point (`Generate`) or a rewrite of a
selected region (`Transform`).  The payloads (`position`, `range`) are ignored
by `generate_content_prompt` (it matches them with `_`), so they are omitted
here. -/
inductive CodegenKind where
  | Generate : CodegenKind
  | Transform : CodegenKind
deriving DecidableEq, Repr

/-- The tiktoken oracle for one model identifier, taken as an external
collaborator:
* `numTokensFromMessages` — `tiktoken_rs::num_tokens_from_messages` applied to
  a single user message with the given content (`none` models `Err`);
* `getContextSize` — `tiktoken_rs::model::get_context_size` (total);
* `getBpe` — `tiktoken_rs::get_bpe_from_model`, exposed as the token-count of
  a text via `encode_with_special_tokens(...).len()` (`none` models `Err`). -/
structure TokenModel where
  numTokensFromMessages : String → Option Nat
  getContextSize : Nat
  getBpe : Option (String → Nat)

/-- Rust `usize` subtraction `a - b` in release builds: two's-complement wrap
modulo `2 ^ 64`.  (Debug builds panic on underflow instead.) -/
def usizeSub (a b : Nat) : Nat :=
  (2 ^ 64 + a % 2 ^ 64 - b % 2 ^ 64) % 2 ^ 64

/-- `MAXIMUM_SNIPPET_TOKEN_COUNT` (line 179). -/
def MAXIMUM_SNIPPET_TOKEN_COUNT : Nat := 500

/-- `RESERVED_TOKENS_FOR_GENERATION` (line 180). -/
def RESERVED_TOKENS_FOR_GENERATION : Nat := 1000

/-- Lines 255-269: the remaining token budget for snippets.  On a successful
count, `intermediate = max_context - current` is computed with `usize`
subtraction (which wraps below zero), then `RESERVED_TOKENS_FOR_GENERATION`
is reserved with an explicit floor at zero; on a counting error the budget is
zero. -/
def remainingTokens (tm : TokenModel) (joined : String) : Nat :=
  match tm.numTokensFromMessages joined with
  | some current_token_count =>
    let max_token_count := tm.getContextSize
    let intermediate_token_count := usizeSub max_token_count current_token_count
    if intermediate_token_count < RESERVED_TOKENS_FOR_GENERATION then 0
    else intermediate_token_count - RESERVED_TOKENS_FOR_GENERATION
  | none => 0

/-- The snippet header template (line 276), used verbatim for the first
accepted snippet and replaced by `""` afterwards. -/
def snippetTemplate : String :=
  "You are working inside a large repository, here are a few code snippets that may be useful"

/-- The fenced block appended to the template by
`writeln!(snippet_prompt, "...")` at line 281 (note the trailing newline from
`writeln!`). -/
def snippetBlock (search_result : PromptCodeSnippet) : String :=
  "```" ++ "\n" ++ search_result.toString ++ "\n" ++ "```" ++ "\n"

/-- Rust `Vec::insert(i, a)`: insert `a` so that it ends up at index `i`
(callers keep `i <= l.length`). -/
def listInsert (l : List α) (i : Nat) (a : α) : List α :=
  l.take i ++ a :: l.drop i

/-- The budgeted snippet packer (lines 278-297): walk the ranked snippets in
order; for each, render `template ++ fenced block` and count its tokens.  If
the count fits the remaining budget and the per-snippet cap, insert it into
`prompts` at `snippet_position` (then advance the position, decrement the
budget, and blank the template); if only the cap fails, drop the snippet and
continue; if the budget fails, stop entirely.  Returns the final prompts,
position and remaining budget. -/
def packLoop (encode : String → Nat) :
    List PromptCodeSnippet → List String → Nat → Nat → String →
      List String × Nat × Nat
  | [], prompts, snippet_position, remaining_token_count, _ =>
    (prompts, snippet_position, remaining_token_count)
  | search_result :: rest, prompts, snippet_position, remaining_token_count,
      template =>
    let snippet_prompt := template ++ snippetBlock search_result
    let token_count := encode snippet_prompt
    if token_count ≤ remaining_token_count then
      if token_count < MAXIMUM_SNIPPET_TOKEN_COUNT then
        packLoop encode rest (listInsert prompts snippet_position snippet_prompt)
          (snippet_position + 1) (remaining_token_count - token_count) ""
      else
        packLoop encode rest prompts snippet_position remaining_token_count
          template
    else
      (prompts, snippet_position, remaining_token_count)

/-- The role preamble (lines 186-190). -/
def preamblePrompt (language_name : Option String) : String :=
  match language_name with
  | some language_name => "You\x27re an expert " ++ language_name ++ " engineer.\n"
  | none => "You\x27re an expert engineer.\n"

/-- The document rendered with the edit region delimited by sentinels
(lines 195-206): a lone `<|START|>` marker for an empty range, otherwise
`<|START|` and `|END|>` around the verbatim region text. -/
def markedContent (buf : List Char) (range : ByteRange) : List Char :=
  textForRange buf 0 range.start ++
    (if range.start = range.stop then "<|START|>".toList else startMark) ++
    textForRange buf range.start range.stop ++
    (if range.start ≠ range.stop then endMark else []) ++
    textForRange buf range.stop buf.length

/-- The prompt parts pushed after the preamble and before snippet packing
(lines 208-246): the file header and fenced document, the kind-specific
instructions, the optional language-validity requirement and the fixed
output-discipline instructions. -/
def bodyPrompts (user_prompt : String) (language_name : Option String)
    (buf : List Char) (range : ByteRange) (kind : CodegenKind) : List String :=
  ["The file you are currently working on has the following content:\n"] ++
  [match language_name with
   | some language_name =>
     "```" ++ language_name.toLower ++ "\n" ++ String.mk (markedContent buf range) ++ "\n```"
   | none => "```" ++ "\n" ++ String.mk (markedContent buf range) ++ "\n```"] ++
  (match kind with
   | CodegenKind.Generate =>
     ["In particular, the user\x27s cursor is currently on the \x27<|START|>\x27 span in the above outline, with no text selected.",
      "Assume the cursor is located where the `<|START|` marker is.",
      "Text can\x27t be replaced, so assume your answer will be inserted at the cursor.",
      "Generate text based on the users prompt: " ++ user_prompt]
   | CodegenKind.Transform =>
     ["In particular, the user has selected a section of the text between the \x27<|START|\x27 and \x27|END|>\x27 spans.",
      "Modify the users code selected text based upon the users prompt: \x27" ++ user_prompt ++ "\x27",
      "You MUST reply with only the adjusted code (within the \x27<|START|\x27 and \x27|END|>\x27 spans), not the entire file."]) ++
  (match language_name with
   | some language_name =>
     ["Your answer MUST always and only be valid " ++ language_name]
   | none => []) ++
  ["Never make remarks about the output.",
   "Do not return any text, except the generated code.",
   "Do not wrap your text in a Markdown block"]

/-- `generate_content_prompt` (lines 170-301).  The prompt parts begin with
the role preamble; `snippet_position` is recorded as `prompts.len() - 1`
right after that push (i.e. index 0); the remaining parts are pushed; the
remaining token budget is computed from the joined parts; and if a BPE is
available the snippet packer inserts accepted snippets at successive
positions starting from `snippet_position`.  The result is the final parts
joined with newlines. -/
def generate_content_prompt (user_prompt : String)
    (language_name : Option String) (buf : List Char) (range : ByteRange)
    (kind : CodegenKind) (search_results : List PromptCodeSnippet)
    (tm : TokenModel) : String :=
  let prompts : List String := [preamblePrompt language_name]
  let snippet_position := prompts.length - 1
  let prompts := prompts ++ bodyPrompts user_prompt language_name buf range kind
  let joined := String.intercalate "\n" prompts
  let remaining_token_count := remainingTokens tm joined
  match tm.getBpe with
  | some encode =>
    String.intercalate "\n"
      (packLoop encode search_results prompts snippet_position
        remaining_token_count snippetTemplate).1
  | none => String.intercalate "\n" prompts

/-- A well-formed byte range has `start <= stop`.  All tree-sitter node
ranges satisfy this. -/
def rangeWF (m : Match) : Prop :=
  m.collapse.start ≤ m.collapse.stop

instance : DecidablePred rangeWF := fun _m =>
  inferInstanceAs (Decidable (_ ≤ _))

/-- Two candidates have disjoint (non-overlapping) collapse ranges. -/
def RangeDisjoint (a b : Match) : Prop :=
  a.collapse.stop ≤ b.collapse.start ∨ b.collapse.stop ≤ a.collapse.start

instance : ∀ a b, Decidable (RangeDisjoint a b) := fun _a _b =>
  inferInstanceAs (Decidable (_ ∨ _))

/-- Two candidates are either nested (one collapse range inside the other) or
disjoint.  Any two byte ranges of nodes of one syntax tree satisfy this. -/
def NestedOrDisjoint (a b : Match) : Prop :=
  (b.collapse.start ≤ a.collapse.start ∧ a.collapse.stop ≤ b.collapse.stop) ∨
  (a.collapse.start ≤ b.collapse.start ∧ b.collapse.stop ≤ a.collapse.stop) ∨
  RangeDisjoint a b

instance : ∀ a b, Decidable (NestedOrDisjoint a b) := fun _a _b =>
  inferInstanceAs (Decidable (_ ∨ _))

theorem nestedOrDisjoint_symm : Symmetric NestedOrDisjoint := by
  intro a b h
  unfold NestedOrDisjoint RangeDisjoint at *
  tauto

/-- `dropNested` returns a suffix of its input. -/
theorem dropNested_suffix (mat : Match) :
    ∀ l : List Match, dropNested mat l <:+ l
  | [] => List.suffix_rfl
  | m :: rest => by
    unfold dropNested
    split
    · exact (dropNested_suffix mat rest).trans (List.suffix_cons m rest)
    · exact List.suffix_rfl

/-- The head of `dropNested mat l` is not nested in `mat`. -/
theorem dropNested_head_not_nested (mat m : Match) (t : List Match) :
    ∀ l : List Match, dropNested mat l = m :: t →
      ¬(mat.collapse.start ≤ m.collapse.start ∧
        m.collapse.stop ≤ mat.collapse.stop)
  | [] => by intro h; simp [dropNested] at h
  | c :: rest => by
    intro h
    unfold dropNested at h
    split at h
    · exact dropNested_head_not_nested mat m t rest h
    · rename_i hc
      cases h
      exact hc

/-- Everything surviving the containment merge of `mat` starts at or after
`mat`'s collapse end, provided the input is sorted by the reducer's key, is
pairwise nested-or-disjoint, and `mat` is well-formed. -/
theorem dropNested_start_ge (mat : Match) (l : List Match)
    (hsort : List.Sorted matchKeyLE (mat :: l))
    (hnod : List.Pairwise NestedOrDisjoint (mat :: l))
    (hwf : rangeWF mat) :
    ∀ m ∈ dropNested mat l, mat.collapse.stop ≤ m.collapse.start := by
  intro m hm
  match hdrop : dropNested mat l with
  | [] => rw [hdrop] at hm; simp at hm
  | h :: t =>
    rw [hdrop] at hm
    have hsuffix : h :: t <:+ l := hdrop ▸ dropNested_suffix mat l
    have hhl : h ∈ l := hsuffix.sublist.mem (List.mem_cons_self h t)
    have hle : matchKeyLE mat h := (List.sorted_cons.mp hsort).1 h hhl
    have hnn := dropNested_head_not_nested mat h t l hdrop
    have hnodh : NestedOrDisjoint mat h :=
      (List.pairwise_cons.mp hnod).1 h hhl
    have hstop : mat.collapse.stop ≤ h.collapse.start := by
      unfold matchKeyLE at hle
      unfold NestedOrDisjoint RangeDisjoint at hnodh
      unfold rangeWF at hwf
      omega
    rcases List.mem_cons.mp hm with rfl | hmt
    · exact hstop
    · have hsortl : List.Sorted matchKeyLE (h :: t) :=
        (List.sorted_cons.mp hsort).2.sublist hsuffix.sublist
      have : matchKeyLE h m := (List.sorted_cons.mp hsortl).1 m hmt
      unfold matchKeyLE at this
      omega

/-- The survivors of the merge form a sublist of the input. -/
theorem mergeSurvivors_sublist : ∀ l : List Match, List.Sublist (mergeSurvivors l) l
  | [] => by simp [mergeSurvivors]
  | mat :: rest => by
    rw [mergeSurvivors_cons]
    exact List.Sublist.cons₂ mat
      ((mergeSurvivors_sublist (dropNested mat rest)).trans
        (dropNested_suffix mat rest).sublist)
termination_by l => l.length
decreasing_by
  simp_wf
  exact Nat.lt_succ_of_le (dropNested_length_le _ _)

/-- For sorted, pairwise nested-or-disjoint, well-formed candidates, the
survivors of the containment merge have pairwise disjoint collapse ranges. -/
theorem mergeSurvivors_pairwise_disjoint (l : List Match)
    (hsort : List.Sorted matchKeyLE l)
    (hnod : List.Pairwise NestedOrDisjoint l)
    (hwf : ∀ m ∈ l, rangeWF m) :
    List.Pairwise RangeDisjoint (mergeSurvivors l) := by
  match l with
  | [] => simp [mergeSurvivors]
  | mat :: rest =>
    rw [mergeSurvivors_cons]
    have hsuffix := dropNested_suffix mat rest
    have hstart := dropNested_start_ge mat rest hsort hnod (hwf mat (List.mem_cons_self _ _))
    refine List.pairwise_cons.mpr ⟨?_, ?_⟩
    · intro m hm
      have hm2 : m ∈ dropNested mat rest :=
        (mergeSurvivors_sublist (dropNested mat rest)).mem hm
      exact Or.inl (hstart m hm2)
    · refine mergeSurvivors_pairwise_disjoint (dropNested mat rest) ?_ ?_ ?_
      · exact ((List.sorted_cons.mp hsort).2).sublist hsuffix.sublist
      · exact ((List.pairwise_cons.mp hnod).2).sublist hsuffix.sublist
      · intro m hm
        exact hwf m (List.mem_cons_of_mem mat (hsuffix.sublist.mem hm))
termination_by l.length
decreasing_by
  simp_wf
  exact Nat.lt_succ_of_le (dropNested_length_le _ _)

/-- `processMats` only appends to the summary accumulator. -/
theorem processMats_append (buf : List Char) (sel : ByteRange) :
    ∀ (W : List Match) (s : List Char) (off : Nat) (fl : Bool),
      processMats buf sel W s off fl = s ++ processMats buf sel W [] off fl
  | [], s, off, fl => by simp [processMats]
  | mat :: rest, s, off, fl => by
    rw [processMats, processMats]
    rw [processMats_append buf sel rest (s ++ _),
        processMats_append buf sel rest ([] ++ _)]
    simp

/-- The interleaved loop equals the plain loop over the merge survivors. -/
theorem summarizeFrom_eq_processMats (buf : List Char) (sel : ByteRange) :
    ∀ (ms : List Match) (s : List Char) (off : Nat) (fl : Bool),
      summarizeFrom buf sel ms s off fl =
        processMats buf sel (mergeSurvivors ms) s off fl
  | [], s, off, fl => by rw [summarizeFrom, mergeSurvivors, processMats]
  | mat :: rest, s, off, fl => by
    rw [summarizeFrom_cons, mergeSurvivors_cons, processMats]
    exact summarizeFrom_eq_processMats buf sel (dropNested mat rest) _ _ _
termination_by ms => ms.length
decreasing_by
  simp_wf
  exact Nat.lt_succ_of_le (dropNested_length_le _ _)

theorem summarizeStep_skip (buf : List Char) (sel : ByteRange) (mat : Match)
    (offset : Nat) (flushed : Bool) (h : mat.collapse.start < offset) :
    summarizeStep buf sel mat offset flushed =
      ([], max offset mat.collapse.stop, flushed) := by
  unfold summarizeStep
  rw [if_pos h]

theorem summarizeStep_collapse (buf : List Char) (sel : ByteRange)
    (mat : Match) (offset : Nat) (flushed : Bool)
    (h1 : ¬mat.collapse.start < offset)
    (h2 : ¬(offset ≤ sel.start ∧ sel.start ≤ mat.collapse.stop)) :
    summarizeStep buf sel mat offset flushed =
      (collapseDelta buf mat offset, mat.collapse.stop, flushed) := by
  unfold summarizeStep
  rw [if_neg h1, if_neg h2]

theorem summarizeStep_flush_continue (buf : List Char) (sel : ByteRange)
    (mat : Match) (offset : Nat)
    (h1 : ¬mat.collapse.start < offset)
    (h2 : offset ≤ sel.start ∧ sel.start ≤ mat.collapse.stop)
    (h3 : mat.collapse.start ≤ sel.stop) :
    summarizeStep buf sel mat offset false =
      (textForRange buf offset sel.start ++ selectionBlock buf sel,
        sel.stop, true) := by
  unfold summarizeStep
  rw [if_neg h1, if_pos h2]
  simp only [Bool.false_eq_true, if_false, if_pos h3]

theorem summarizeStep_flush_collapse (buf : List Char) (sel : ByteRange)
    (mat : Match) (offset : Nat)
    (h1 : ¬mat.collapse.start < offset)
    (h2 : offset ≤ sel.start ∧ sel.start ≤ mat.collapse.stop)
    (h3 : ¬mat.collapse.start ≤ sel.stop) :
    summarizeStep buf sel mat offset false =
      ((textForRange buf offset sel.start ++ selectionBlock buf sel) ++
          collapseDelta buf mat sel.stop,
        mat.collapse.stop, true) := by
  unfold summarizeStep
  rw [if_neg h1, if_pos h2]
  simp only [Bool.false_eq_true, if_false, if_neg h3]

theorem summarizeStep_flushed_continue (buf : List Char) (sel : ByteRange)
    (mat : Match) (offset : Nat)
    (h1 : ¬mat.collapse.start < offset)
    (h2 : offset ≤ sel.start ∧ sel.start ≤ mat.collapse.stop)
    (h3 : mat.collapse.start ≤ sel.stop) :
    summarizeStep buf sel mat offset true = ([], offset, true) := by
  unfold summarizeStep
  rw [if_neg h1, if_pos h2]
  simp only [if_true, if_pos h3]

theorem summarizeStep_flushed_collapse (buf : List Char) (sel : ByteRange)
    (mat : Match) (offset : Nat)
    (h1 : ¬mat.collapse.start < offset)
    (h2 : offset ≤ sel.start ∧ sel.start ≤ mat.collapse.stop)
    (h3 : ¬mat.collapse.start ≤ sel.stop) :
    summarizeStep buf sel mat offset true =
      (collapseDelta buf mat offset, mat.collapse.stop, true) := by
  unfold summarizeStep
  rw [if_neg h1, if_pos h2]
  simp only [if_true, if_neg h3]

/-- Invariant carried through the reducer loop before the selection is
flushed: the cursor has not passed the selection start, and every candidate
the cursor has entered has already been fully passed. -/
theorem processMats_selection_preserved (buf : List Char) (sel : ByteRange) :
    ∀ (W : List Match) (s : List Char) (offset : Nat),
      List.Pairwise RangeDisjoint W →
      (∀ m ∈ W, rangeWF m) →
      (∀ m ∈ W, m.collapse.start < offset → m.collapse.stop ≤ offset) →
      offset ≤ sel.start →
      ∃ pre post, processMats buf sel W s offset false =
        s ++ pre ++ selectionBlock buf sel ++ post
  | [], s, offset => by
    intro _ _ _ hoff
    refine ⟨textForRange buf offset sel.start,
      textForRange buf sel.stop buf.length, ?_⟩
    rw [processMats]
    unfold finalFlush
    rw [if_pos ⟨by simp, hoff⟩]
    simp
  | mat :: rest, s, offset => by
    intro hdisj hwf hpass hoff
    have hdisj2 := (List.pairwise_cons.mp hdisj).2
    have hdisj1 := (List.pairwise_cons.mp hdisj).1
    have hwf1 : rangeWF mat := hwf mat (List.mem_cons_self _ _)
    have hwf2 : ∀ m ∈ rest, rangeWF m := fun m hm =>
      hwf m (List.mem_cons_of_mem mat hm)
    rw [processMats]
    by_cases hskip : mat.collapse.start < offset
    · have hstop : mat.collapse.stop ≤ offset :=
        hpass mat (List.mem_cons_self _ _) hskip
      rw [summarizeStep_skip buf sel mat offset false hskip]
      simp only [Nat.max_eq_left hstop]
      have ⟨pre, post, h⟩ :=
        processMats_selection_preserved buf sel rest (s ++ []) offset hdisj2
          hwf2 (fun m hm => hpass m (List.mem_cons_of_mem mat hm)) hoff
      exact ⟨pre, post, by simpa using h⟩
    · by_cases hselc : offset ≤ sel.start ∧ sel.start ≤ mat.collapse.stop
      · by_cases hcont : mat.collapse.start ≤ sel.stop
        · rw [summarizeStep_flush_continue buf sel mat offset hskip hselc hcont]
          simp only []
          rw [processMats_append]
          refine ⟨textForRange buf offset sel.start,
            processMats buf sel rest [] sel.stop true, ?_⟩
          simp
        · rw [summarizeStep_flush_collapse buf sel mat offset hskip hselc hcont]
          simp only []
          rw [processMats_append]
          refine ⟨textForRange buf offset sel.start,
            collapseDelta buf mat sel.stop ++
              processMats buf sel rest [] mat.collapse.stop true, ?_⟩
          simp
      · rw [summarizeStep_collapse buf sel mat offset false hskip hselc]
        simp only []
        have hoff2 : mat.collapse.stop < sel.start := by
          push_neg at hselc
          exact hselc hoff
        have hpass2 : ∀ m ∈ rest,
            m.collapse.start < mat.collapse.stop →
              m.collapse.stop ≤ mat.collapse.stop := by
          intro m hm hlt
          rcases hdisj1 m hm with h | h
          · omega
          · unfold rangeWF at hwf1
            omega
        have ⟨pre, post, h⟩ :=
          processMats_selection_preserved buf sel rest
            (s ++ collapseDelta buf mat offset) mat.collapse.stop hdisj2 hwf2
            hpass2 (Nat.le_of_lt hoff2)
        refine ⟨collapseDelta buf mat offset ++ pre, post, ?_⟩
        rw [h]
        simp

/-- Claim C1, amended: for every point-of-interest range within document
bounds and every candidate list whose collapse ranges are well-formed and
pairwise nested-or-disjoint (as all span lists drawn from one syntax tree
are), the outline returned by `summarize` contains the selection block:
the start sentinel followed, for a non-empty point of interest, by the
document's verbatim text for the range and the end sentinel (and by `>` for
an empty one).  The restriction to nested-or-disjoint candidates is necessary:
see `summarize_selection_lost_cex`. -/
theorem summarize_selection_preserved (buf : List Char) (mats : List Match)
    (sel : ByteRange)
    (hnod : List.Pairwise NestedOrDisjoint mats)
    (hwf : ∀ m ∈ mats, rangeWF m)
    (hrange : sel.start ≤ sel.stop) (hbound : sel.stop ≤ buf.length) :
    ∃ pre post, summarize buf mats sel =
      pre ++ selectionBlock buf sel ++ post := by
  unfold summarize sortMatches
  rw [summarizeFrom_eq_processMats]
  have hsort := List.sorted_insertionSort matchKeyLE mats
  have hperm := List.perm_insertionSort matchKeyLE mats
  have hnod2 : List.Pairwise NestedOrDisjoint
      (List.insertionSort matchKeyLE mats) :=
    (hperm.pairwise_iff fun {_ _} h => nestedOrDisjoint_symm h).mpr hnod
  have hwf2 : ∀ m ∈ List.insertionSort matchKeyLE mats, rangeWF m :=
    fun m hm => hwf m (hperm.mem_iff.mp hm)
  have hdisj := mergeSurvivors_pairwise_disjoint _ hsort hnod2 hwf2
  have hwf3 : ∀ m ∈ mergeSurvivors (List.insertionSort matchKeyLE mats),
      rangeWF m :=
    fun m hm => hwf2 m ((mergeSurvivors_sublist _).mem hm)
  have h := processMats_selection_preserved buf sel
    (mergeSurvivors (List.insertionSort matchKeyLE mats)) [] 0 hdisj hwf3
    (by intro m _ h; omega) (Nat.zero_le _)
  obtain ⟨pre, post, h⟩ := h
  exact ⟨pre, post, by simpa using h⟩

/-- Witness for `summarize_selection_preserved` at a concrete input: one
well-formed collapse candidate nested-or-disjoint setup with a non-empty
selection inside the document. -/
theorem summarize_selection_preserved_witness :
    ∃ pre post,
      summarize "abcdef".toList [⟨⟨3, 5⟩, [⟨3, 4⟩]⟩] ⟨1, 2⟩ =
        pre ++ selectionBlock "abcdef".toList ⟨1, 2⟩ ++ post :=
  summarize_selection_preserved "abcdef".toList [⟨⟨3, 5⟩, [⟨3, 4⟩]⟩] ⟨1, 2⟩
    (by decide) (by decide) (by decide) (by decide)

/-- Counterexample to claim C1 as stated (for arbitrary candidate lists):
with the overlapping, non-nested candidates `[0,10)` and `[5,15)` and the
in-bounds point of interest `[12,13)`, the reducer's cursor jumps past the
selection while skipping the second candidate, and the output contains no
start sentinel at all (the selection text is lost). -/
theorem summarize_selection_lost_cex :
    (12 ≤ 13 ∧ 13 ≤ ("abcdefghijklmnopqrstuvwxyz".toList).length) ∧
    ¬ List.IsInfix startMark
      (summarize "abcdefghijklmnopqrstuvwxyz".toList
        [⟨⟨0, 10⟩, []⟩, ⟨⟨5, 15⟩, []⟩] ⟨12, 13⟩) := by
  decide

/-- Invariant carried through the reducer loop: before the flush the cursor
is at or before the selection start and every entered candidate is fully
passed; after the flush the cursor is at or past the selection end.  Under it
(and pairwise-disjoint well-formed candidates) no candidate whose collapse
range properly intersects the selection is ever collapse-emitted. -/
theorem collapsedMats_not_intersecting (buf : List Char) (sel : ByteRange)
    (hsel : sel.start ≤ sel.stop) :
    ∀ (W : List Match) (offset : Nat) (flushed : Bool),
      List.Pairwise RangeDisjoint W →
      (∀ m ∈ W, rangeWF m) →
      (flushed = true → sel.stop ≤ offset) →
      (flushed = false → offset ≤ sel.start ∧
        ∀ m ∈ W, m.collapse.start < offset → m.collapse.stop ≤ offset) →
      ∀ m ∈ collapsedMats buf sel W offset flushed,
        ¬(sel.start < m.collapse.stop ∧ m.collapse.start < sel.stop)
  | [], offset, flushed => by
    intro _ _ _ _ m hm
    rw [collapsedMats] at hm
    simp at hm
  | mat :: rest, offset, flushed => by
    intro hdisj hwf hinvT hinvF m hm
    have hdisj1 := (List.pairwise_cons.mp hdisj).1
    have hdisj2 := (List.pairwise_cons.mp hdisj).2
    have hwf1 : rangeWF mat := hwf mat (List.mem_cons_self _ _)
    have hwf2 : ∀ m ∈ rest, rangeWF m := fun m hm =>
      hwf m (List.mem_cons_of_mem mat hm)
    rw [collapsedMats] at hm
    simp only [List.mem_append] at hm
    rcases hm with hm | hm
    · -- `m = mat` was collapse-emitted here: derive non-intersection.
      by_cases hcond : offset ≤ mat.collapse.start ∧
          (¬(offset ≤ sel.start ∧ sel.start ≤ mat.collapse.stop) ∨
            sel.stop < mat.collapse.start)
      · rw [if_pos hcond] at hm
        simp only [List.mem_singleton] at hm
        subst hm
        cases flushed with
        | true =>
          have h1 := hinvT rfl
          omega
        | false =>
          have h1 := (hinvF rfl).1
          omega
      · rw [if_neg hcond] at hm
        simp at hm
    · -- recursive part: re-establish the invariant after `summarizeStep`.
      revert hm
      by_cases hskip : mat.collapse.start < offset
      · rw [summarizeStep_skip buf sel mat offset flushed hskip]
        intro hm; dsimp only at hm
        cases flushed with
        | true =>
          refine collapsedMats_not_intersecting buf sel hsel rest _ true hdisj2
            hwf2 (fun _ => ?_) (by simp) m hm
          have := hinvT rfl
          omega
        | false =>
          have hpassmat := (hinvF rfl).2 mat (List.mem_cons_self _ _) hskip
          have hmax : max offset mat.collapse.stop = offset := by omega
          rw [hmax] at hm
          refine collapsedMats_not_intersecting buf sel hsel rest _ false hdisj2
            hwf2 (by simp) (fun _ => ⟨(hinvF rfl).1, fun m hmr hlt =>
              (hinvF rfl).2 m (List.mem_cons_of_mem mat hmr) hlt⟩) m hm
      · by_cases hselc : offset ≤ sel.start ∧ sel.start ≤ mat.collapse.stop
        · cases flushed with
          | true =>
            by_cases hcont : mat.collapse.start ≤ sel.stop
            · rw [summarizeStep_flushed_continue buf sel mat offset hskip hselc
                hcont]
              intro hm; dsimp only at hm
              exact collapsedMats_not_intersecting buf sel hsel rest _ true
                hdisj2 hwf2 hinvT (by simp) m hm
            · rw [summarizeStep_flushed_collapse buf sel mat offset hskip hselc
                hcont]
              intro hm; dsimp only at hm
              refine collapsedMats_not_intersecting buf sel hsel rest _ true
                hdisj2 hwf2 (fun _ => ?_) (by simp) m hm
              unfold rangeWF at hwf1
              omega
          | false =>
            by_cases hcont : mat.collapse.start ≤ sel.stop
            · rw [summarizeStep_flush_continue buf sel mat offset hskip hselc
                hcont]
              intro hm; dsimp only at hm
              exact collapsedMats_not_intersecting buf sel hsel rest _ true
                hdisj2 hwf2 (fun _ => Nat.le_refl _) (by simp) m hm
            · rw [summarizeStep_flush_collapse buf sel mat offset hskip hselc
                hcont]
              intro hm; dsimp only at hm
              refine collapsedMats_not_intersecting buf sel hsel rest _ true
                hdisj2 hwf2 (fun _ => ?_) (by simp) m hm
              unfold rangeWF at hwf1
              omega
        · rw [summarizeStep_collapse buf sel mat offset flushed hskip hselc]
          intro hm; dsimp only at hm
          cases flushed with
          | true =>
            refine collapsedMats_not_intersecting buf sel hsel rest _ true
              hdisj2 hwf2 (fun _ => ?_) (by simp) m hm
            have := hinvT rfl
            unfold rangeWF at hwf1
            omega
          | false =>
            have h1 := (hinvF rfl).1
            have hstop : mat.collapse.stop < sel.start := by
              push_neg at hselc
              exact hselc h1
            refine collapsedMats_not_intersecting buf sel hsel rest _ false
              hdisj2 hwf2 (by simp) (fun _ => ⟨by omega, ?_⟩) m hm
            intro m2 hm2 hlt
            rcases hdisj1 m2 hm2 with h | h
            · omega
            · unfold rangeWF at hwf1
              omega

/-- Claim C7, amended: for well-formed, pairwise nested-or-disjoint candidate
lists and a point of interest `P` with `P.start <= P.end`, a candidate whose
collapse range properly intersects `P` is never collapse-emitted by the
reducer: its keep sub-ranges are never substituted for its body
(`collapsedMats` records exactly the candidates for which `summarizeStep`
takes the collapse branch).  The claim's stronger conclusion — that such a
candidate's full text appears verbatim in the output — is false: see
`summarize_intersecting_text_dropped_cex`. -/
theorem summarize_selection_overrides_collapse (buf : List Char)
    (mats : List Match) (sel : ByteRange)
    (hnod : List.Pairwise NestedOrDisjoint mats)
    (hwf : ∀ m ∈ mats, rangeWF m)
    (hrange : sel.start ≤ sel.stop) :
    ∀ m ∈ collapsedMats buf sel (mergeSurvivors (sortMatches mats)) 0 false,
      ¬(sel.start < m.collapse.stop ∧ m.collapse.start < sel.stop) := by
  unfold sortMatches
  have hsort := List.sorted_insertionSort matchKeyLE mats
  have hperm := List.perm_insertionSort matchKeyLE mats
  have hnod2 : List.Pairwise NestedOrDisjoint
      (List.insertionSort matchKeyLE mats) :=
    (hperm.pairwise_iff fun {_ _} h => nestedOrDisjoint_symm h).mpr hnod
  have hwf2 : ∀ m ∈ List.insertionSort matchKeyLE mats, rangeWF m :=
    fun m hm => hwf m (hperm.mem_iff.mp hm)
  have hdisj := mergeSurvivors_pairwise_disjoint _ hsort hnod2 hwf2
  have hwf3 : ∀ m ∈ mergeSurvivors (List.insertionSort matchKeyLE mats),
      rangeWF m :=
    fun m hm => hwf2 m ((mergeSurvivors_sublist _).mem hm)
  exact collapsedMats_not_intersecting buf sel hrange _ 0 false hdisj hwf3
    (by simp) (fun _ => ⟨Nat.zero_le _, fun m _ h => by omega⟩)

/-- Witness for `summarize_selection_overrides_collapse`: with the single
candidate `[2,4)` and the selection `[0,1)` before it, the candidate is
collapse-emitted and indeed does not intersect the selection. -/
theorem summarize_selection_overrides_collapse_witness :
    ¬((⟨0, 1⟩ : ByteRange).start < (⟨⟨2, 4⟩, []⟩ : Match).collapse.stop ∧
      (⟨⟨2, 4⟩, []⟩ : Match).collapse.start < (⟨0, 1⟩ : ByteRange).stop) :=
  summarize_selection_overrides_collapse "abcdef".toList [⟨⟨2, 4⟩, []⟩] ⟨0, 1⟩
    (by decide) (by decide) (by decide) ⟨⟨2, 4⟩, []⟩ (by decide)

/-- Counterexample to claim C7 as stated: the candidates `[0,10)` and
`[11,20)` are well-formed and disjoint, and the selection `[5,12)` properly
intersects the second candidate's collapse range; that candidate is indeed
not collapse-emitted, but its full verbatim text does NOT appear in the
output — the reducer's cursor is at 12 when the candidate is reached, so the
skip branch discards its text on `[12,20)` entirely. -/
theorem summarize_intersecting_text_dropped_cex :
    (List.Pairwise NestedOrDisjoint
        [(⟨⟨0, 10⟩, []⟩ : Match), ⟨⟨11, 20⟩, []⟩] ∧
      (5 : Nat) < 20 ∧ (11 : Nat) < 12) ∧
    ¬ List.IsInfix (textForRange "abcdefghijklmnopqrstuvwxyz".toList 11 20)
      (summarize "abcdefghijklmnopqrstuvwxyz".toList
        [⟨⟨0, 10⟩, []⟩, ⟨⟨11, 20⟩, []⟩] ⟨5, 12⟩) := by
  decide

/-- Claim C4, amended: for input candidate lists whose collapse ranges are
well-formed and pairwise nested-or-disjoint (as all span lists drawn from one
syntax tree are), after the sort by `(collapse.start, Reverse(collapse.end))`
and the containment merge, the surviving candidates processed by the reducer
have pairwise non-overlapping (disjoint) collapse ranges.  For arbitrary
lists this fails — merely-overlapping candidates both survive the merge:
see `merge_survivors_overlap_cex`. -/
theorem merge_survivors_nonoverlapping (mats : List Match)
    (hnod : List.Pairwise NestedOrDisjoint mats)
    (hwf : ∀ m ∈ mats, rangeWF m) :
    List.Pairwise RangeDisjoint (mergeSurvivors (sortMatches mats)) := by
  unfold sortMatches
  have hperm := List.perm_insertionSort matchKeyLE mats
  exact mergeSurvivors_pairwise_disjoint _
    (List.sorted_insertionSort matchKeyLE mats)
    ((hperm.pairwise_iff fun {_ _} h => nestedOrDisjoint_symm h).mpr hnod)
    (fun m hm => hwf m (hperm.mem_iff.mp hm))

/-- Witness for `merge_survivors_nonoverlapping`: a nested pair of
candidates. -/
theorem merge_survivors_nonoverlapping_witness :
    List.Pairwise RangeDisjoint
      (mergeSurvivors (sortMatches [⟨⟨0, 9⟩, []⟩, ⟨⟨1, 2⟩, []⟩, ⟨⟨12, 14⟩, []⟩])) :=
  merge_survivors_nonoverlapping [⟨⟨0, 9⟩, []⟩, ⟨⟨1, 2⟩, []⟩, ⟨⟨12, 14⟩, []⟩]
    (by decide) (by decide)

/-- Counterexample to claim C4 as stated (for arbitrary candidate lists):
the overlapping, non-nested candidates `[0,10)` and `[5,15)` both survive the
containment merge, and their collapse ranges overlap. -/
theorem merge_survivors_overlap_cex :
    ¬ List.Pairwise RangeDisjoint
      (mergeSurvivors (sortMatches [⟨⟨0, 10⟩, []⟩, ⟨⟨5, 15⟩, []⟩])) := by
  decide

theorem listInsert_length (l : List α) (i : Nat) (a : α) (h : i ≤ l.length) :
    (listInsert l i a).length = l.length + 1 := by
  unfold listInsert
  simp
  omega

theorem listInsert_take (l : List α) (i : Nat) (a : α) (h : i ≤ l.length) :
    (listInsert l i a).take (i + 1) = l.take i ++ [a] := by
  unfold listInsert
  have hlen : (l.take i).length = i := by simp; omega
  calc (l.take i ++ a :: l.drop i).take (i + 1)
      = (l.take i ++ a :: l.drop i).take ((l.take i).length + 1) := by rw [hlen]
    _ = l.take i ++ (a :: l.drop i).take 1 := List.take_append 1
    _ = l.take i ++ [a] := by simp

theorem listInsert_drop (l : List α) (i : Nat) (a : α) (h : i ≤ l.length) :
    (listInsert l i a).drop (i + 1) = l.drop i := by
  unfold listInsert
  have hlen : (l.take i).length = i := by simp; omega
  calc (l.take i ++ a :: l.drop i).drop (i + 1)
      = (l.take i ++ a :: l.drop i).drop ((l.take i).length + 1) := by rw [hlen]
    _ = (a :: l.drop i).drop 1 := List.drop_append 1
    _ = l.drop i := by simp

/-- Full characterization of one packer run: the accepted snippet prompts form
a block spliced into `prompts` at `snippet_position`; the final position is
advanced by the block length; the remaining budget is the initial budget minus
the exact sum of the accepted prompts' token costs (which never exceeds the
initial budget); and every accepted prompt is a whole rendered snippet,
prefixed by the header template or by nothing. -/
theorem packLoop_spec (encode : String → Nat) :
    ∀ (frags : List PromptCodeSnippet) (prompts : List String)
      (pos rem : Nat) (tmpl : String),
      pos ≤ prompts.length →
      ∃ block : List String,
        packLoop encode frags prompts pos rem tmpl =
          (prompts.take pos ++ block ++ prompts.drop pos, pos + block.length,
            rem - (block.map encode).sum) ∧
        (block.map encode).sum ≤ rem ∧
        ∀ s ∈ block, ∃ f ∈ frags, ∃ t, (t = tmpl ∨ t = "") ∧
          s = t ++ snippetBlock f
  | [], prompts, pos, rem, tmpl => by
    intro _
    refine ⟨[], ?_, by simp, by simp⟩
    simp [packLoop]
  | f :: rest, prompts, pos, rem, tmpl => by
    intro hpos
    rw [packLoop]
    by_cases hbudget : encode (tmpl ++ snippetBlock f) ≤ rem
    · rw [if_pos hbudget]
      by_cases hcap : encode (tmpl ++ snippetBlock f) < MAXIMUM_SNIPPET_TOKEN_COUNT
      · rw [if_pos hcap]
        have hpos2 : pos + 1 ≤ (listInsert prompts pos (tmpl ++ snippetBlock f)).length := by
          rw [listInsert_length prompts pos _ hpos]
          omega
        obtain ⟨block, heq, hsum, hmem⟩ :=
          packLoop_spec encode rest
            (listInsert prompts pos (tmpl ++ snippetBlock f)) (pos + 1)
            (rem - encode (tmpl ++ snippetBlock f)) "" hpos2
        refine ⟨(tmpl ++ snippetBlock f) :: block, ?_, ?_, ?_⟩
        · rw [heq, listInsert_take prompts pos _ hpos,
            listInsert_drop prompts pos _ hpos]
          have h1 : prompts.take pos ++ [tmpl ++ snippetBlock f] ++ block ++
              prompts.drop pos =
              prompts.take pos ++ ((tmpl ++ snippetBlock f) :: block) ++
                prompts.drop pos := by simp
          rw [h1]
          have h2 : pos + 1 + block.length =
              pos + ((tmpl ++ snippetBlock f) :: block).length := by
            simp
            omega
          rw [h2]
          have h3 : rem - encode (tmpl ++ snippetBlock f) -
              (block.map encode).sum =
              rem - (((tmpl ++ snippetBlock f) :: block).map encode).sum := by
            simp
            omega
          rw [h3]
        · simp
          omega
        · intro s hs
          rcases List.mem_cons.mp hs with rfl | hs
          · exact ⟨f, List.mem_cons_self _ _, tmpl, Or.inl rfl, rfl⟩
          · obtain ⟨f2, hf2, t, ht, hst⟩ := hmem s hs
            exact ⟨f2, List.mem_cons_of_mem f hf2, t,
              Or.inr (ht.elim id id), hst⟩
      · rw [if_neg hcap]
        obtain ⟨block, heq, hsum, hmem⟩ :=
          packLoop_spec encode rest prompts pos rem tmpl hpos
        refine ⟨block, heq, hsum, ?_⟩
        intro s hs
        obtain ⟨f2, hf2, t, ht, hst⟩ := hmem s hs
        exact ⟨f2, List.mem_cons_of_mem f hf2, t, ht, hst⟩
    · rw [if_neg hbudget]
      refine ⟨[], ?_, by simp, by simp⟩
      simp

/-- Claim C5: packing stops at the first fragment whose token cost exceeds
the remaining budget: the run ends with prompts, position and budget exactly
as they were, and since the result does not depend on `rest`, no later
(possibly smaller) fragment is examined or accepted. -/
theorem packer_greedy_stop (encode : String → Nat) (f : PromptCodeSnippet)
    (rest : List PromptCodeSnippet) (prompts : List String)
    (pos rem : Nat) (tmpl : String)
    (h : rem < encode (tmpl ++ snippetBlock f)) :
    packLoop encode (f :: rest) prompts pos rem tmpl = (prompts, pos, rem) := by
  rw [packLoop, if_neg (by omega)]

/-- Witness for `packer_greedy_stop`: the head fragment costs 5 against a
budget of 3, and the run stops even though the remaining fragment would cost
only 1. -/
theorem packer_greedy_stop_witness :
    (3 : Nat) <
      (fun s => if s = "" ++ snippetBlock ⟨none, none, "x"⟩ then 5 else 1)
        ("" ++ snippetBlock ⟨none, none, "x"⟩) ∧
    packLoop
      (fun s => if s = "" ++ snippetBlock ⟨none, none, "x"⟩ then 5 else 1)
      [⟨none, none, "x"⟩, ⟨none, none, "y"⟩] ["p"] 0 3 "" =
      (["p"], 0, 3) :=
  ⟨by decide,
    packer_greedy_stop _ ⟨none, none, "x"⟩ [⟨none, none, "y"⟩] ["p"] 0 3 ""
      (by decide)⟩

/-- Claim C6: after any packer run, the remaining budget equals the initial
budget minus the sum of the accepted snippet prompts' token costs, that sum
never exceeds the initial budget (the budget never goes negative and only
decreases), and every accepted snippet prompt is a whole rendered fragment
(template-prefixed or bare), never truncated. -/
theorem packer_budget_invariant (encode : String → Nat)
    (frags : List PromptCodeSnippet) (prompts : List String)
    (pos rem : Nat) (tmpl : String) (hpos : pos ≤ prompts.length) :
    ∃ block : List String,
      packLoop encode frags prompts pos rem tmpl =
        (prompts.take pos ++ block ++ prompts.drop pos, pos + block.length,
          rem - (block.map encode).sum) ∧
      (block.map encode).sum ≤ rem ∧
      ∀ s ∈ block, ∃ f ∈ frags, ∃ t, (t = tmpl ∨ t = "") ∧
        s = t ++ snippetBlock f :=
  packLoop_spec encode frags prompts pos rem tmpl hpos

/-- Witness for `packer_budget_invariant` at a concrete input. -/
theorem packer_budget_invariant_witness :
    ∃ block : List String,
      packLoop (fun _ => 1) [⟨none, none, "x"⟩] ["p"] 0 10 "T" =
        (["p"].take 0 ++ block ++ ["p"].drop 0, 0 + block.length,
          10 - (block.map (fun _ => 1)).sum) ∧
      (block.map (fun _ => 1)).sum ≤ 10 ∧
      ∀ s ∈ block, ∃ f ∈ [(⟨none, none, "x"⟩ : PromptCodeSnippet)],
        ∃ t, (t = "T" ∨ t = "") ∧ s = t ++ snippetBlock f :=
  packer_budget_invariant (fun _ => 1) [⟨none, none, "x"⟩] ["p"] 0 10 "T"
    (by decide)

/-- Claim C9: a fragment whose token cost fits the remaining budget but does
not satisfy the per-snippet maximum is silently dropped: the run continues on
the remaining fragments with the prompts, position, remaining budget and
header template all unchanged (and the fragment's text is never truncated to
fit — it simply does not appear). -/
theorem packer_cap_drop (encode : String → Nat) (f : PromptCodeSnippet)
    (rest : List PromptCodeSnippet) (prompts : List String)
    (pos rem : Nat) (tmpl : String)
    (h1 : encode (tmpl ++ snippetBlock f) ≤ rem)
    (h2 : MAXIMUM_SNIPPET_TOKEN_COUNT ≤ encode (tmpl ++ snippetBlock f)) :
    packLoop encode (f :: rest) prompts pos rem tmpl =
      packLoop encode rest prompts pos rem tmpl := by
  rw [packLoop, if_pos h1, if_neg (by omega)]

/-- Witness for `packer_cap_drop`: a 600-token fragment against a budget of
1000 and the cap of 500 is dropped, and packing continues unchanged. -/
theorem packer_cap_drop_witness :
    ((fun _ => (600 : Nat)) ("" ++ snippetBlock ⟨none, none, "x"⟩) ≤ 1000 ∧
      MAXIMUM_SNIPPET_TOKEN_COUNT ≤
        (fun _ => (600 : Nat)) ("" ++ snippetBlock ⟨none, none, "x"⟩)) ∧
    packLoop (fun _ => 600) [⟨none, none, "x"⟩] ["p"] 0 1000 "" =
      packLoop (fun _ => 600) [] ["p"] 0 1000 "" :=
  ⟨⟨by decide, by decide⟩,
    packer_cap_drop _ ⟨none, none, "x"⟩ [] ["p"] 0 1000 "" (by decide)
      (by decide)⟩

/-- Claim C2, amended: in the assembled prompt the accepted snippets form a
contiguous block at the very beginning, immediately BEFORE the role preamble
(`snippet_position` starts at `prompts.len() - 1 = 0`, so insertions land in
front of the preamble); the preamble and then the document body follow the
snippet block.  The claim's stated order — preamble first, snippets after
it — is refuted by `snippet_precedes_preamble_cex`. -/
theorem snippets_prepended (user_prompt : String)
    (language_name : Option String) (buf : List Char) (range : ByteRange)
    (kind : CodegenKind) (search_results : List PromptCodeSnippet)
    (tm : TokenModel) :
    ∃ block : List String,
      generate_content_prompt user_prompt language_name buf range kind
          search_results tm =
        String.intercalate "\n"
          (block ++ preamblePrompt language_name ::
            bodyPrompts user_prompt language_name buf range kind) ∧
      ∀ s ∈ block, ∃ f ∈ search_results, ∃ t,
        (t = snippetTemplate ∨ t = "") ∧ s = t ++ snippetBlock f := by
  unfold generate_content_prompt
  cases hbpe : tm.getBpe with
  | none =>
    refine ⟨[], ?_, by simp⟩
    simp
  | some encode =>
    obtain ⟨block, heq, _, hmem⟩ :=
      packLoop_spec encode search_results
        ([preamblePrompt language_name] ++
          bodyPrompts user_prompt language_name buf range kind)
        ([preamblePrompt language_name].length - 1)
        (remainingTokens tm (String.intercalate "\n"
          ([preamblePrompt language_name] ++
            bodyPrompts user_prompt language_name buf range kind)))
        snippetTemplate (by simp)
    refine ⟨block, ?_, hmem⟩
    simp only [heq]
    simp

/-- Counterexample to claim C2 as stated: with one accepted snippet, the
assembled prompt begins with the snippet header template, not with the role
preamble — the snippet block is inserted before the preamble, so the preamble
is not the first part of the prompt. -/
theorem snippet_precedes_preamble_cex :
    List.IsPrefix snippetTemplate.toList
      (generate_content_prompt "do" none "ab".toList ⟨0, 0⟩
        CodegenKind.Generate [⟨none, none, "SNIP"⟩]
        ⟨fun _ => some 0, 5000, some fun _ => 0⟩).toList ∧
    ¬ List.IsPrefix (preamblePrompt none).toList
      (generate_content_prompt "do" none "ab".toList ⟨0, 0⟩
        CodegenKind.Generate [⟨none, none, "SNIP"⟩]
        ⟨fun _ => some 0, 5000, some fun _ => 0⟩).toList := by
  decide

/-- Claim C3 is violated by the code (a code bug): when the counted prompt
cost exceeds the model's maximum context size, the `usize` subtraction
`max_token_count - current_token_count` at line 259 underflows.  In release
builds it wraps around: with a context size of 4096 tokens and a counted cost
of 5000 tokens the "remaining budget" becomes `2^64 - 1904` — an enormous
nonzero budget — instead of the specified `max(0, 4096 - 5000 - 1000) = 0`
(debug builds panic outright).  The error path (`none`) does yield 0. -/
theorem token_budget_underflow_cex :
    remainingTokens ⟨fun _ => some 5000, 4096, none⟩ "prompt" =
      2 ^ 64 - 1904 ∧
    (2 ^ 64 - 1904 : Nat) ≠ 0 ∧
    remainingTokens ⟨fun _ => none, 4096, none⟩ "prompt" = 0 := by
  refine ⟨by decide, by decide, by decide⟩

/-- Claim C10: a `PromptCodeSnippet` with absent file path and language label
still renders the full header line and the fenced block — the missing fields
behave exactly like empty strings (the header ends with `from file: ` and the
fence is unlabeled), and the content sits untouched between header-plus-fence
and the closing fence. -/
theorem snippet_toString_absent_fields (content : String) :
    PromptCodeSnippet.toString ⟨none, none, content⟩ =
      PromptCodeSnippet.toString ⟨some "", some "", content⟩ ∧
    (PromptCodeSnippet.toString ⟨none, none, content⟩).data =
      ("The below code snippet may be relevant from file: " ++ "\n" ++
        "```" ++ "\n").data ++ content.data ++ ("\n" ++ "```").data := by
  refine ⟨rfl, ?_⟩
  have hnil : ("" : String).data = [] := rfl
  simp [PromptCodeSnippet.toString, String.data_append, hnil]

/-- `B` is (weakly) nested in `A`: the containment tested by the merge,
`A.collapse.start <= B.collapse.start && B.collapse.end >= A.collapse.end`. -/
def nestedIn (b a : Match) : Prop :=
  a.collapse.start ≤ b.collapse.start ∧ b.collapse.stop ≤ a.collapse.stop

instance : ∀ b a, Decidable (nestedIn b a) := fun _b _a =>
  inferInstanceAs (Decidable (_ ∧ _))

theorem insertionSort_append (u t : List Match) :
    List.insertionSort matchKeyLE (u ++ t) =
      u.foldr (fun a s => List.orderedInsert matchKeyLE a s)
        (List.insertionSort matchKeyLE t) := by
  induction u with
  | nil => rfl
  | cons c u ih => simp [List.insertionSort, ih]

/-- Inserting into a list splits it around the inserted element. -/
theorem orderedInsert_decomp (x : Match) (t : List Match) :
    ∃ a b, List.orderedInsert matchKeyLE x t = a ++ x :: b ∧ t = a ++ b :=
  ⟨t.takeWhile fun c => decide ¬matchKeyLE x c,
    t.dropWhile fun c => decide ¬matchKeyLE x c,
    by simpa using List.orderedInsert_eq_take_drop matchKeyLE x t,
    (List.takeWhile_append_dropWhile _ _).symm⟩

theorem sorted_foldr_orderedInsert (t : List Match)
    (h : List.Sorted matchKeyLE t) :
    ∀ u : List Match,
      List.Sorted matchKeyLE
        (u.foldr (fun a s => List.orderedInsert matchKeyLE a s) t)
  | [] => h
  | z :: u => by
    simpa using
      List.Sorted.orderedInsert z _ (sorted_foldr_orderedInsert t h u)

/-- Inserting `z` into a sorted list split around `x` yields a list split
around the same occurrence of `x`, consistently with inserting `z` into the
list with `x` removed. -/
theorem orderedInsert_middle (z x : Match) :
    ∀ (a b : List Match), List.Sorted matchKeyLE (a ++ x :: b) →
      ∃ a1 b1,
        List.orderedInsert matchKeyLE z (a ++ x :: b) = a1 ++ x :: b1 ∧
        List.orderedInsert matchKeyLE z (a ++ b) = a1 ++ b1
  | [], b, hsort => by
    by_cases hzx : matchKeyLE z x
    · refine ⟨[z], b, ?_, ?_⟩
      · simp [List.orderedInsert, hzx]
      · cases b with
        | nil => simp [List.orderedInsert]
        | cons b0 bs =>
          have hxb0 : matchKeyLE x b0 :=
            (List.sorted_cons.mp hsort).1 b0 (List.mem_cons_self _ _)
          have hzb0 : matchKeyLE z b0 := by
            unfold matchKeyLE at hzx hxb0 ⊢
            omega
          simp [List.orderedInsert, hzb0]
    · refine ⟨[], List.orderedInsert matchKeyLE z b, ?_, rfl⟩
      simp [List.orderedInsert, hzx]
  | y :: a, b, hsort => by
    by_cases hzy : matchKeyLE z y
    · refine ⟨z :: y :: a, b, ?_, ?_⟩
      · simp [List.orderedInsert, hzy]
      · simp [List.orderedInsert, hzy]
    · obtain ⟨a1, b1, h1, h2⟩ :=
        orderedInsert_middle z x a b (List.sorted_cons.mp hsort).2
      refine ⟨y :: a1, b1, ?_, ?_⟩
      · simp [List.orderedInsert, hzy, h1]
      · simp [List.orderedInsert, hzy, h2]

/-- Iterated insertion preserves the split around `x` (the heart of the
stability argument: removing one element from the input of a stable sort
removes exactly its occurrence from the output). -/
theorem foldr_orderedInsert_decomp (x : Match) :
    ∀ (u t : List Match), List.Sorted matchKeyLE t →
      ∃ a b,
        u.foldr (fun c s => List.orderedInsert matchKeyLE c s)
            (List.orderedInsert matchKeyLE x t) = a ++ x :: b ∧
        u.foldr (fun c s => List.orderedInsert matchKeyLE c s) t = a ++ b
  | [], t, hsort => orderedInsert_decomp x t
  | z :: u, t, hsort => by
    obtain ⟨a, b, h1, h2⟩ := foldr_orderedInsert_decomp x u t hsort
    have hsorted : List.Sorted matchKeyLE (a ++ x :: b) := by
      rw [← h1]
      exact sorted_foldr_orderedInsert _
        (List.Sorted.orderedInsert x t hsort) u
    obtain ⟨a1, b1, g1, g2⟩ := orderedInsert_middle z x a b hsorted
    refine ⟨a1, b1, ?_, ?_⟩
    · simpa [h1] using g1
    · simpa [h2] using g2

/-- Removing one occurrence of `B` from the sort input removes exactly that
occurrence from the sorted output (stability of the modelled sort). -/
theorem sortMatches_removal (l1 l2 : List Match) (B : Match) :
    ∃ a b, sortMatches (l1 ++ B :: l2) = a ++ B :: b ∧
      sortMatches (l1 ++ l2) = a ++ b := by
  unfold sortMatches
  rw [insertionSort_append l1 (B :: l2), insertionSort_append l1 l2]
  exact foldr_orderedInsert_decomp B l1 _
    (List.sorted_insertionSort matchKeyLE l2)

/-- One merge pass either consumes `B` (both sides agree thereafter) or stops
at a non-nested match `y` before `B`, re-establishing that `B` is nested in
`y` or in a later element of the remaining prefix. -/
theorem dropNested_removal (B : Match) :
    ∀ (m : Match) (u v : List Match),
      List.Sorted matchKeyLE (m :: (u ++ B :: v)) →
      (nestedIn B m ∨ ∃ A ∈ u, nestedIn B A) →
      dropNested m (u ++ B :: v) = dropNested m (u ++ v) ∨
      (∃ y u1, dropNested m (u ++ B :: v) = y :: (u1 ++ B :: v) ∧
        dropNested m (u ++ v) = y :: (u1 ++ v) ∧
        (nestedIn B y ∨ ∃ A ∈ u1, nestedIn B A) ∧
        List.IsSuffix (y :: u1) u)
  | m, [], v, hsort, hinv => by
    left
    have hBm : nestedIn B m := by
      rcases hinv with h | ⟨A, hA, _⟩
      · exact h
      · simp at hA
    unfold nestedIn at hBm
    simp only [List.nil_append]
    rw [dropNested, if_pos hBm]
  | m, c :: u, v, hsort, hinv => by
    by_cases hc : m.collapse.start ≤ c.collapse.start ∧
        c.collapse.stop ≤ m.collapse.stop
    · have hsort2 : List.Sorted matchKeyLE (m :: (u ++ B :: v)) := by
        refine hsort.sublist ?_
        refine List.Sublist.cons₂ m ?_
        exact List.sublist_cons_self c (u ++ B :: v)
      have hinv2 : nestedIn B m ∨ ∃ A ∈ u, nestedIn B A := by
        rcases hinv with h | ⟨A, hA, hBA⟩
        · exact Or.inl h
        · rcases List.mem_cons.mp hA with rfl | hAu
          · left
            unfold nestedIn at hBA ⊢
            omega
          · exact Or.inr ⟨A, hAu, hBA⟩
      have step := dropNested_removal B m u v hsort2 hinv2
      rcases step with heq | ⟨y, u1, h1, h2, hinv3, hsuf⟩
      · left
        simp only [List.cons_append]
        rw [dropNested, if_pos hc, dropNested, if_pos hc]
        exact heq
      · right
        refine ⟨y, u1, ?_, ?_, hinv3, hsuf.trans (List.suffix_cons c u)⟩
        · simp only [List.cons_append]
          rw [dropNested, if_pos hc]
          exact h1
        · simp only [List.cons_append]
          rw [dropNested, if_pos hc]
          exact h2
    · right
      refine ⟨c, u, ?_, ?_, ?_, List.suffix_rfl⟩
      · simp only [List.cons_append]
        rw [dropNested, if_neg hc]
      · simp only [List.cons_append]
        rw [dropNested, if_neg hc]
      · rcases hinv with h | ⟨A, hA, hBA⟩
        · left
          have hmc : matchKeyLE m c :=
            (List.sorted_cons.mp hsort).1 c (by simp)
          have hcB : matchKeyLE c B := by
            have hsub : List.Sorted matchKeyLE (c :: (u ++ B :: v)) :=
              (List.sorted_cons.mp hsort).2
            exact (List.sorted_cons.mp hsub).1 B (by simp)
          unfold nestedIn at h ⊢
          unfold matchKeyLE at hmc hcB
          omega
        · rcases List.mem_cons.mp hA with rfl | hAu
          · exact Or.inl hBA
          · exact Or.inr ⟨A, hAu, hBA⟩

/-- Removing a match that is nested in an earlier element of a sorted list
does not change the merge survivors. -/
theorem mergeSurvivors_removal (B : Match) :
    ∀ (m : Match) (u v : List Match),
      List.Sorted matchKeyLE (m :: (u ++ B :: v)) →
      (nestedIn B m ∨ ∃ A ∈ u, nestedIn B A) →
      mergeSurvivors (m :: (u ++ B :: v)) = mergeSurvivors (m :: (u ++ v))
  | m, u, v, hsort, hinv => by
    rw [mergeSurvivors_cons, mergeSurvivors_cons]
    rcases dropNested_removal B m u v hsort hinv with heq | ⟨y, u1, h1, h2, hinv2, hsuf⟩
    · rw [heq]
    · rw [h1, h2]
      congr 1
      have hsorted2 : List.Sorted matchKeyLE (y :: (u1 ++ B :: v)) := by
        have : List.IsSuffix (y :: (u1 ++ B :: v)) (u ++ B :: v) :=
          h1 ▸ dropNested_suffix m (u ++ B :: v)
        exact ((List.sorted_cons.mp hsort).2).sublist this.sublist
      exact mergeSurvivors_removal B y u1 v hsorted2 hinv2
termination_by m u v => u.length
decreasing_by
  simp_wf
  have := hsuf.sublist.length_le
  simp at this
  omega

/-- In a sorted split `a ++ B :: b`, a match strictly containing `B` cannot
occur after `B`, because its sort key is strictly smaller. -/
theorem strict_container_before (a b : List Match) (A B : Match)
    (hsorted : List.Sorted matchKeyLE (a ++ B :: b)) (hA : A ∈ a ++ b)
    (hnest : nestedIn B A)
    (hstrict : A.collapse.start < B.collapse.start ∨
      B.collapse.stop < A.collapse.stop) :
    A ∈ a := by
  rcases List.mem_append.mp hA with h | h
  · exact h
  · exfalso
    have hBb : List.Sorted matchKeyLE (B :: b) :=
      hsorted.sublist (List.sublist_append_right a (B :: b))
    have hBA : matchKeyLE B A := (List.sorted_cons.mp hBb).1 A h
    unfold matchKeyLE at hBA
    unfold nestedIn at hnest
    omega

/-- Claim C8, amended: removing a candidate `B` that is STRICTLY nested in
another candidate `A` of the list (proper containment, not an identical
range) leaves the outline unchanged: the merge always discards `B`, so the
reducer's output is identical with or without it.  For `B` with exactly the
same collapse range as `A` (which the merge condition also counts as
nested) this can fail, because whichever of the two sorts first wins and
their `keep` ranges may differ: see `summarize_remove_equal_range_cex`. -/
theorem summarize_remove_strictly_nested (buf : List Char) (sel : ByteRange)
    (l1 l2 : List Match) (A B : Match)
    (hA : A ∈ l1 ++ l2)
    (hnest : nestedIn B A)
    (hstrict : A.collapse.start < B.collapse.start ∨
      B.collapse.stop < A.collapse.stop) :
    summarize buf (l1 ++ B :: l2) sel = summarize buf (l1 ++ l2) sel := by
  obtain ⟨a, b, h1, h2⟩ := sortMatches_removal l1 l2 B
  have hsorted1 : List.Sorted matchKeyLE (a ++ B :: b) := by
    rw [← h1]
    exact List.sorted_insertionSort matchKeyLE (l1 ++ B :: l2)
  have hAab : A ∈ a ++ b := by
    have hmem : A ∈ sortMatches (l1 ++ l2) :=
      (List.perm_insertionSort matchKeyLE (l1 ++ l2)).mem_iff.mpr hA
    rw [h2] at hmem
    exact hmem
  have hAa : A ∈ a := strict_container_before a b A B hsorted1 hAab hnest hstrict
  obtain ⟨m, u, rfl⟩ : ∃ m u, a = m :: u := by
    cases a with
    | nil => simp at hAa
    | cons m u => exact ⟨m, u, rfl⟩
  have hmerge : mergeSurvivors (sortMatches (l1 ++ B :: l2)) =
      mergeSurvivors (sortMatches (l1 ++ l2)) := by
    rw [h1, h2]
    have hinv : nestedIn B m ∨ ∃ A2 ∈ u, nestedIn B A2 := by
      rcases List.mem_cons.mp hAa with rfl | hAu
      · exact Or.inl hnest
      · exact Or.inr ⟨A, hAu, hnest⟩
    exact mergeSurvivors_removal B m u b hsorted1 hinv
  unfold summarize
  rw [summarizeFrom_eq_processMats, summarizeFrom_eq_processMats, hmerge]

/-- Witness for `summarize_remove_strictly_nested`: `[1,2)` is strictly
nested in `[0,5)`; removing it leaves the outline unchanged. -/
theorem summarize_remove_strictly_nested_witness :
    summarize "abcdef".toList [⟨⟨0, 5⟩, []⟩, ⟨⟨1, 2⟩, []⟩] ⟨5, 5⟩ =
      summarize "abcdef".toList [⟨⟨0, 5⟩, []⟩] ⟨5, 5⟩ :=
  summarize_remove_strictly_nested "abcdef".toList ⟨5, 5⟩ [⟨⟨0, 5⟩, []⟩] []
    ⟨⟨0, 5⟩, []⟩ ⟨⟨1, 2⟩, []⟩ (by decide) (by decide) (by decide)

/-- Counterexample to claim C8 as stated: with `A = [0,4)` keeping `[0,1)`
and `B = [0,4)` keeping `[1,2)`, `B`'s collapse range is (weakly) fully
nested in `A`'s — exactly the containment the merge tests — yet removing `B`
changes the outline, because with `B` present `B` sorts first, survives, and
its different `keep` ranges are emitted. -/
theorem summarize_remove_equal_range_cex :
    nestedIn (⟨⟨0, 4⟩, [⟨1, 2⟩]⟩ : Match) (⟨⟨0, 4⟩, [⟨0, 1⟩]⟩ : Match) ∧
    summarize "abcdef".toList [⟨⟨0, 4⟩, [⟨1, 2⟩]⟩, ⟨⟨0, 4⟩, [⟨0, 1⟩]⟩] ⟨5, 5⟩ ≠
      summarize "abcdef".toList [⟨⟨0, 4⟩, [⟨0, 1⟩]⟩] ⟨5, 5⟩ := by
  decide
